import Mathlib

/-!
Verification of the first-fit memory-allocation simulator (`ff_sim.c`).

The engine state (`SystemMemory`) and every operation are shallowly embedded
from the C source: arrays with an explicit element count become lists, the
circular wait queue becomes a FIFO list (front at the head) guarded by the
same capacity check, the `-1` failure address becomes `none`, and the
`while (try_allocate_waiting_process(sys));` loop becomes a fuel-indexed
loop whose fuel (queue length + 1) dominates the number of iterations the C
loop can perform, since every successful iteration shrinks the queue by one.
-/

namespace FFSim

def MAX_BLOCKS : Nat := 50
def MAX_PROCESSES : Nat := 50
def MAX_WAIT_QUEUE : Nat := 50

/-- One memory block (`MemoryBlock` in the source): start address, size in
KB, and the free flag. -/
structure MemoryBlock where
  start : Nat
  size : Nat
  is_free : Bool
deriving Repr, DecidableEq

/-- One process record (`Process` in the source). Records are appended on
allocation and only ever deactivated, never removed. -/
structure Process where
  id : Nat
  memory_address : Nat
  memory_size : Nat
  is_active : Bool
deriving Repr, DecidableEq

/-- One wait-queue entry (`WaitingProcess` in the source). -/
structure WaitingProcess where
  process_id : Nat
  memory_size : Nat
deriving Repr, DecidableEq

/-- The aggregate engine state (`SystemMemory` in the source). The block,
process and wait-queue arrays together with their counts are modelled as
lists; the circular wait queue is modelled as a FIFO list with the front at
the head, which is faithful because every C access goes through
front/rear/count with the capacity guard in `add_to_wait_queue`. -/
structure SystemMemory where
  blocks : List MemoryBlock
  processes : List Process
  wait_queue : List WaitingProcess
deriving Repr, DecidableEq

/-- The block-layout loop of `initialize_memory`: consecutive start
addresses beginning at `addr`, every block free. -/
def initialize_blocks : Nat → List Nat → List MemoryBlock
  | _, [] => []
  | addr, sz :: rest => ⟨addr, sz, true⟩ :: initialize_blocks (addr + sz) rest

/-- `initialize_memory` (source lines 78-96): zeroed tables, blocks laid
out contiguously from address 0, all free, empty wait queue. -/
def initialize_memory (sizes : List Nat) : SystemMemory :=
  { blocks := initialize_blocks 0 sizes, processes := [], wait_queue := [] }

/-- The summation loop of `get_total_free_memory`. -/
def total_free : List MemoryBlock → Nat
  | [] => 0
  | b :: rest => (if b.is_free then b.size else 0) + total_free rest

/-- `get_total_free_memory` (source lines 99-108). -/
def get_total_free_memory (s : SystemMemory) : Nat :=
  total_free s.blocks

/-- `add_to_wait_queue` (source lines 111-126): rejects when the queue
holds `MAX_WAIT_QUEUE` entries, otherwise appends at the rear. -/
def add_to_wait_queue (s : SystemMemory) (process_id size : Nat) :
    Bool × SystemMemory :=
  if MAX_WAIT_QUEUE ≤ s.wait_queue.length then
    (false, s)
  else
    (true, { s with wait_queue := s.wait_queue ++ [⟨process_id, size⟩] })

/-- The block-scanning loop of `first_fit_allocate` (source lines 162-194):
find the first free block of sufficient size; mark it allocated, splitting
off the remainder as a new free block inserted right after it when the
block is strictly larger than the request (the C shifts the tail of the
array one slot to the right, which on lists is exactly this insertion).
Returns the chosen block's start address and the updated block list, or
`none` when no block fits. -/
def ff_scan : List MemoryBlock → Nat → Option (Nat × List MemoryBlock)
  | [], _ => none
  | b :: rest, size =>
    if b.is_free = true ∧ size ≤ b.size then
      if b.size = size then
        some (b.start, { b with is_free := false } :: rest)
      else
        some (b.start,
          { b with size := size, is_free := false } ::
            ⟨b.start + size, b.size - size, true⟩ :: rest)
    else
      match ff_scan rest size with
      | none => none
      | some (addr, rest') => some (addr, b :: rest')

/-- `first_fit_allocate` (source lines 160-201): on a fit, update the
blocks and append an active process record (the source performs no
capacity check on either table before growing it); otherwise call
`add_to_wait_queue` and return `-1` (here `none`) regardless of whether
the enqueue succeeded. -/
def first_fit_allocate (s : SystemMemory) (process_id size : Nat) :
    Option Nat × SystemMemory :=
  match ff_scan s.blocks size with
  | some (addr, blocks') =>
    (some addr,
      { s with blocks := blocks',
               processes := s.processes ++ [⟨process_id, addr, size, true⟩] })
  | none =>
    (none, (add_to_wait_queue s process_id size).2)

/-- `try_allocate_waiting_process` (source lines 129-157): nothing to do on
an empty queue; stop if the total-free pre-check fails; otherwise run the
allocator on the head request and dequeue it exactly when an address came
back. -/
def try_allocate_waiting_process (s : SystemMemory) : Bool × SystemMemory :=
  match s.wait_queue with
  | [] => (false, s)
  | w :: _ =>
    if get_total_free_memory s < w.memory_size then
      (false, s)
    else
      match first_fit_allocate s w.process_id w.memory_size with
      | (some _, s') => (true, { s' with wait_queue := s'.wait_queue.drop 1 })
      | (none, s') => (false, s')

/-- Fuel-indexed form of `while (try_allocate_waiting_process(sys));`
(source line 218). -/
def drain_loop : Nat → SystemMemory → SystemMemory
  | 0, s => s
  | fuel + 1, s =>
    match try_allocate_waiting_process s with
    | (true, s') => drain_loop fuel s'
    | (false, s') => s'

/-- The reclaim drain. Fuel `wait_queue.length + 1` is enough: each
successful step removes one queue entry and enqueues none, so the C loop
runs at most `length` successful iterations before a failing (terminal)
one. -/
def drain (s : SystemMemory) : SystemMemory :=
  drain_loop (s.wait_queue.length + 1) s

/-- The inner loop of `free_memory` (source lines 212-221): flip the free
flag of the first block whose start address matches, or report that none
does. -/
def mark_free_at : List MemoryBlock → Nat → Option (List MemoryBlock)
  | [], _ => none
  | b :: rest, addr =>
    if b.start = addr then
      some ({ b with is_free := true } :: rest)
    else
      match mark_free_at rest addr with
      | none => none
      | some rest' => some (b :: rest')

/-- The outer loop of `free_memory` (source lines 206-223): scan the
process table for an active record with the given id; deactivate it, then
look for its block.  When the block is found the scan stops there; when it
is not found the C code leaves the record deactivated and keeps scanning,
which this embedding reproduces. -/
def free_scan : List Process → List MemoryBlock → Nat →
    Bool × List Process × List MemoryBlock
  | [], blocks, _ => (false, [], blocks)
  | p :: rest, blocks, process_id =>
    if p.id = process_id ∧ p.is_active = true then
      match mark_free_at blocks p.memory_address with
      | some blocks' =>
        (true, { p with is_active := false } :: rest, blocks')
      | none =>
        match free_scan rest blocks process_id with
        | (found, rest', blocks') =>
          (found, { p with is_active := false } :: rest', blocks')
    else
      match free_scan rest blocks process_id with
      | (found, rest', blocks') => (found, p :: rest', blocks')

/-- `free_memory` (source lines 204-225): the result flag is `true` when a
block was freed (the source prints "freed" and runs the drain) and `false`
when the scan fell through to "Process not found". -/
def free_memory (s : SystemMemory) (process_id : Nat) :
    Bool × SystemMemory :=
  match free_scan s.processes s.blocks process_id with
  | (true, procs', blocks') =>
    (true, drain { s with processes := procs', blocks := blocks' })
  | (false, procs', blocks') =>
    (false, { s with processes := procs', blocks := blocks' })

/-- States reachable from `initialize_memory` by the operations the menu
loop of `main` can perform.  `main` validates every allocation size with
`get_valid_integer(..., 1, INT_MAX)`, so allocation sizes are at least 1;
process ids are left unconstrained (they are caller-supplied). -/
inductive Reachable (sizes : List Nat) : SystemMemory → Prop
  | init : Reachable sizes (initialize_memory sizes)
  | alloc (s : SystemMemory) (process_id size : Nat)
      (hs : Reachable sizes s) (hsize : 0 < size) :
      Reachable sizes (first_fit_allocate s process_id size).2
  | free (s : SystemMemory) (process_id : Nat) (hs : Reachable sizes s) :
      Reachable sizes (free_memory s process_id).2

/-- The block list is contiguous from address `addr`: each block starts
where the previous one ended, the first at `addr`, and every size is
positive. -/
def contiguous_from : Nat → List MemoryBlock → Prop
  | _, [] => True
  | addr, b :: rest =>
    b.start = addr ∧ 0 < b.size ∧ contiguous_from (addr + b.size) rest

/-- Total of all block sizes, free or not. -/
def sum_sizes : List MemoryBlock → Nat
  | [] => 0
  | b :: rest => b.size + sum_sizes rest

/-- An active process record points at an allocated block of its exact
recorded address and size. -/
def good_process (blocks : List MemoryBlock) (p : Process) : Prop :=
  p.is_active = true →
    ∃ b ∈ blocks,
      b.start = p.memory_address ∧ b.is_free = false ∧
        b.size = p.memory_size

/-- Distinct process records never hold the same address while both are
active. -/
def addr_disjoint (p q : Process) : Prop :=
  p.is_active = true → q.is_active = true →
    p.memory_address ≠ q.memory_address

/-- The inductive invariant of the engine: contiguous block layout of
constant total size, positive queued request sizes, every active process
backed by its own allocated block, and no two active records sharing an
address. -/
def Inv (total : Nat) (s : SystemMemory) : Prop :=
  contiguous_from 0 s.blocks ∧
  sum_sizes s.blocks = total ∧
  (∀ w ∈ s.wait_queue, 0 < w.memory_size) ∧
  (∀ p ∈ s.processes, good_process s.blocks p) ∧
  s.processes.Pairwise addr_disjoint

/-! Concrete runs of the engine, used to evaluate the operations at
specific inputs.  Every run uses only operations the CLI of `main` can
issue: block sizes and request sizes at least 1, process ids assigned by
the incrementing counter, frees of previously issued ids. -/

/-- Two blocks of 10 and 5 KB; process 1 takes the 10 KB block; process 2
requests 12 KB and is queued; reachable via menu choices 1, 1. -/
def c1_pre : SystemMemory :=
  (first_fit_allocate
    (first_fit_allocate (initialize_memory [10, 5]) 1 10).2 2 12).2

/-- Fifty blocks of 2 KB each: the block table at its `MAX_BLOCKS`
capacity. -/
def c2_split_state : SystemMemory := initialize_memory (List.replicate 50 2)

/-- Fifty exact-fit allocations on the fifty 2 KB blocks: the process
table at its `MAX_PROCESSES` capacity. -/
def c2_filled : SystemMemory :=
  (List.range 50).foldl (fun s i => (first_fit_allocate s (i + 1) 2).2)
    c2_split_state

/-- A single 5 KB block and fifty queued 6 KB requests: the wait queue at
its `MAX_WAIT_QUEUE` capacity. -/
def c7_full_queue : SystemMemory :=
  (List.range 50).foldl (fun s i => (first_fit_allocate s (i + 1) 6).2)
    (initialize_memory [5])

/-- The spec's Scenario 1: blocks `[100,500,200,300,600]`, request of
212 KB by process 1. -/
def c8_after : Option Nat × SystemMemory :=
  first_fit_allocate (initialize_memory [100, 500, 200, 300, 600]) 1 212

/-- A run in which the wait-queue duplication gives process 5 two active
allocations while the wait queue ends up empty.  Blocks `[12,12,10,5]`;
processes 1-4 fill them; process 5's 12 KB request is queued; freeing
process 3 triggers a drain whose first-fit attempt fails (free blocks 10
and 5, total 15 ≥ 12) and re-enqueues the head, duplicating it;
processes 6 and 7 then refill the 10 and 5 KB blocks so the later drains
stop on the total-free pre-check; freeing processes 1 and 2 then services
both copies of the request, allocating process 5 twice. -/
def c9_mid : SystemMemory :=
  (free_memory (free_memory
    (first_fit_allocate (first_fit_allocate
      (free_memory (free_memory
        (first_fit_allocate (first_fit_allocate (first_fit_allocate
          (first_fit_allocate (first_fit_allocate
            (initialize_memory [12, 12, 10, 5]) 1 12).2 2 12).2 3 10).2
              4 5).2 5 12).2
        4).2 3).2 6 10).2 7 5).2 1).2 2).2

/-- `c9_mid` after one `free` of process 5. -/
def c9_once : SystemMemory := (free_memory c9_mid 5).2

/-- A single 3 KB block and a queued 5 KB request: the head of the wait
queue exceeds the total free memory. -/
def c6_state : SystemMemory :=
  (first_fit_allocate (initialize_memory [3]) 1 5).2

/-- C1: during the reclaim drain in `c1_pre` (wait queue `[(2,12)]`, both
blocks free after the free of process 1), the total-free pre-check passes
(15 ≥ 12) and first-fit fails (no single free block holds 12 KB), and the
drain stops with the head still in front — but the failed
`first_fit_allocate` call has re-enqueued the head request, so the wait
queue ends as `[(2,12),(2,12)]` rather than unchanged.  This exhibits the
divergence from the claim, which requires no new entry to be enqueued. -/
theorem failed_drain_requeues_head :
  c1_pre.wait_queue = [⟨2, 12⟩] ∧
  (free_memory c1_pre 1).2.blocks =
    [⟨0, 10, true⟩, ⟨10, 5, true⟩] ∧
  12 ≤ get_total_free_memory (free_memory c1_pre 1).2 ∧
  ff_scan ((free_memory c1_pre 1).2).blocks 12 = none ∧
  (free_memory c1_pre 1).2.wait_queue = [⟨2, 12⟩, ⟨2, 12⟩] := by
  decide

set_option maxRecDepth 100000 in
/-- C2: `first_fit_allocate` performs no capacity check on either table.
With the block table already holding `MAX_BLOCKS` blocks, a request that
forces a split succeeds and grows the table to 51 blocks while recording
the process (in the C source this is an out-of-bounds write past
`blocks[49]`); with the process table already holding `MAX_PROCESSES`
records, a further allocation succeeds and appends a 51st record (again
out of bounds in C).  No capacity error is reported and the mutations are
not rolled back, contradicting the claim. -/
theorem allocate_overruns_full_tables :
  c2_split_state.blocks.length = MAX_BLOCKS ∧
  (first_fit_allocate c2_split_state 1 1).1 = some 0 ∧
  ((first_fit_allocate c2_split_state 1 1).2).blocks.length =
    MAX_BLOCKS + 1 ∧
  ((first_fit_allocate c2_split_state 1 1).2).processes.length = 1 ∧
  c2_filled.processes.length = MAX_PROCESSES ∧
  (first_fit_allocate (free_memory c2_filled 1).2 51 2).1 = some 0 ∧
  ((first_fit_allocate (free_memory c2_filled 1).2 51 2).2).processes.length =
    MAX_PROCESSES + 1 := by
  decide

set_option maxRecDepth 100000 in
/-- C7 (counterexample): with no fitting block, the value returned to the
caller is `none` (the C source returns `-1`) both when the request is
enqueued (fresh one-block system) and when the wait queue is full and the
request is dropped (`c7_full_queue`), so the two non-address outcomes are
not distinguished in the reported result; `main` prints "Process added to
wait queue" for either.  The full-queue call leaves the state entirely
unchanged. -/
theorem queued_and_full_results_indistinguishable :
  c7_full_queue.wait_queue.length = MAX_WAIT_QUEUE ∧
  (first_fit_allocate (initialize_memory [5]) 1 6).1 = none ∧
  (first_fit_allocate c7_full_queue 51 6).1 = none ∧
  (first_fit_allocate (initialize_memory [5]) 1 6).1 =
    (first_fit_allocate c7_full_queue 51 6).1 ∧
  (first_fit_allocate c7_full_queue 51 6).2 = c7_full_queue := by
  decide

/-- C8: Scenario 1 and Scenario 2.  From blocks `[100,500,200,300,600]`,
the 212 KB request is placed at address 100 by splitting the 500 KB block
into an allocated 212 KB block at 100 and a free 288 KB block at 312; the
subsequent 900 KB request finds no free block of size at least 900 and is
queued, leaving the blocks unchanged, although the total free memory is
100+288+200+300+600 = 1488. -/
theorem scenario_split_then_fragmented_queue :
  c8_after.1 = some 100 ∧
  c8_after.2.blocks =
    [⟨0, 100, true⟩, ⟨100, 212, false⟩, ⟨312, 288, true⟩,
      ⟨600, 200, true⟩, ⟨800, 300, true⟩, ⟨1100, 600, true⟩] ∧
  get_total_free_memory c8_after.2 = 1488 ∧
  (∀ b ∈ c8_after.2.blocks, b.is_free = true → b.size < 900) ∧
  (first_fit_allocate c8_after.2 2 900).1 = none ∧
  ((first_fit_allocate c8_after.2 2 900).2).wait_queue = [⟨2, 900⟩] ∧
  ((first_fit_allocate c8_after.2 2 900).2).blocks = c8_after.2.blocks := by
  decide

/-- C9: in `c9_mid` the wait-queue duplication has left process 5 with two
active records (the queue itself is empty).  The first `free_memory` of
id 5 succeeds; the second call, instead of reporting "not found" and
leaving the state unchanged as the claim requires, finds the second
active record, frees its block, and mutates the state. -/
theorem double_free_frees_duplicate :
  c9_mid.wait_queue = [] ∧
  (c9_mid.processes.filter (fun p => p.id == 5 && p.is_active)).length = 2 ∧
  (free_memory c9_mid 5).1 = true ∧
  (free_memory c9_once 5).1 = true ∧
  (free_memory c9_once 5).2 ≠ c9_once := by
  decide

/-! Structural lemmas about the first-fit scan. -/

/-- Running the scan on a list whose first fitting block is `b` marks `b`
allocated, splitting off the remainder when `b` is strictly larger than
the request, and returns `b.start`. -/
theorem ff_scan_append (l₁ : List MemoryBlock) (b : MemoryBlock)
    (l₂ : List MemoryBlock) (size : Nat)
    (h₁ : ∀ c ∈ l₁, ¬(c.is_free = true ∧ size ≤ c.size))
    (hb : b.is_free = true ∧ size ≤ b.size) :
    ff_scan (l₁ ++ b :: l₂) size =
      some (b.start,
        l₁ ++ (if b.size = size then
          { b with is_free := false } :: l₂
        else
          { b with size := size, is_free := false } ::
            ⟨b.start + size, b.size - size, true⟩ :: l₂)) := by
  induction l₁ with
  | nil =>
    simp only [List.nil_append, ff_scan, if_pos hb]
    by_cases h : b.size = size <;> simp [h]
  | cons c l₁ ih =>
    have hc : ¬(c.is_free = true ∧ size ≤ c.size) := h₁ c (by simp)
    have ih' := ih (fun d hd => h₁ d (by simp [hd]))
    simp only [List.cons_append, ff_scan, if_neg hc, List.append_eq, ih']

/-- A successful scan means the block list splits as an unfitting front
part, the chosen block (free, large enough, providing the returned
address), and the remainder. -/
theorem ff_scan_some_decomp (blocks : List MemoryBlock) (size : Nat) :
    ∀ (addr : Nat) (blocks' : List MemoryBlock),
      ff_scan blocks size = some (addr, blocks') →
      ∃ l₁ b l₂, blocks = l₁ ++ b :: l₂ ∧ b.is_free = true ∧
        size ≤ b.size ∧ addr = b.start ∧
        ∀ c ∈ l₁, ¬(c.is_free = true ∧ size ≤ c.size) := by
  induction blocks with
  | nil => intro addr blocks' h; simp [ff_scan] at h
  | cons b rest ih =>
    intro addr blocks' h
    by_cases hb : b.is_free = true ∧ size ≤ b.size
    · have haddr : addr = b.start := by
        simp only [ff_scan, if_pos hb] at h
        by_cases hs : b.size = size <;> simp [hs] at h <;>
          exact h.1.symm
      exact ⟨[], b, rest, by simp, hb.1, hb.2, haddr, by simp⟩
    · simp only [ff_scan, if_neg hb] at h
      rcases hscan : ff_scan rest size with _ | ⟨a, rest'⟩ <;>
        rw [hscan] at h
      · simp at h
      · simp only [Option.some.injEq, Prod.mk.injEq] at h
        obtain ⟨l₁, d, l₂, hdec, hf, hsz, ha, hall⟩ :=
          ih a rest' hscan
        refine ⟨b :: l₁, d, l₂, by simp [hdec], hf, hsz, by
          rw [← h.1]; exact ha, ?_⟩
        intro c hc
        rcases List.mem_cons.mp hc with rfl | hc
        · exact hb
        · exact hall c hc

/-- If no block fits, the scan reports failure. -/
theorem ff_scan_eq_none (blocks : List MemoryBlock) (size : Nat)
    (h : ∀ c ∈ blocks, ¬(c.is_free = true ∧ size ≤ c.size)) :
    ff_scan blocks size = none := by
  induction blocks with
  | nil => rfl
  | cons b rest ih =>
    have hb := h b (by simp)
    simp only [ff_scan, if_neg hb, ih (fun c hc => h c (by simp [hc]))]

/-- C5: a successful `first_fit_allocate` selects the lowest-index block
among all blocks that are free and at least as large as the request: the
block list splits into an earlier part in which no block fits, the
selected block (whose start address is the one returned), and the rest.
In particular no later block is ever selected, whatever its size. -/
theorem first_fit_selects_lowest_index (s : SystemMemory)
    (process_id size addr : Nat)
    (h : (first_fit_allocate s process_id size).1 = some addr) :
    ∃ l₁ b l₂, s.blocks = l₁ ++ b :: l₂ ∧ b.is_free = true ∧
      size ≤ b.size ∧ addr = b.start ∧
      ∀ c ∈ l₁, ¬(c.is_free = true ∧ size ≤ c.size) := by
  unfold first_fit_allocate at h
  rcases hscan : ff_scan s.blocks size with _ | ⟨a, blocks'⟩ <;>
    rw [hscan] at h
  · simp at h
  · simp only [Option.some.injEq] at h
    subst h
    exact ff_scan_some_decomp s.blocks size a blocks' hscan

/-- Witness for C5 at the layout `[100, 500]` with request 212: the 100 KB
block does not fit, so the 500 KB block at address 100 is selected. -/
theorem first_fit_selects_lowest_index_witness :
    (first_fit_allocate (initialize_memory [100, 500]) 1 212).1 =
      some 100 ∧
    ∃ l₁ b l₂, (initialize_memory [100, 500]).blocks = l₁ ++ b :: l₂ ∧
      b.is_free = true ∧ 212 ≤ b.size ∧ 100 = b.start ∧
      ∀ c ∈ l₁, ¬(c.is_free = true ∧ 212 ≤ c.size) :=
  ⟨by decide,
    first_fit_selects_lowest_index (initialize_memory [100, 500]) 1 212 100
      (by decide)⟩

/-- C3: when the first fitting free block `b` is strictly larger than the
request, the allocation replaces it by an allocated block of exactly the
requested size at the old start, immediately followed by a free block of
the remaining size at `start + size`, with all later blocks one position
further and the block count one higher; when `b`'s size equals the
request, the block is merely marked allocated and the count is
unchanged. -/
theorem first_fit_split_correct (s : SystemMemory) (process_id size : Nat)
    (l₁ : List MemoryBlock) (b : MemoryBlock) (l₂ : List MemoryBlock)
    (hblocks : s.blocks = l₁ ++ b :: l₂)
    (h₁ : ∀ c ∈ l₁, ¬(c.is_free = true ∧ size ≤ c.size))
    (hfree : b.is_free = true) (hfit : size ≤ b.size) :
    (size < b.size →
      (first_fit_allocate s process_id size).2.blocks =
        l₁ ++ ⟨b.start, size, false⟩ ::
          ⟨b.start + size, b.size - size, true⟩ :: l₂ ∧
      ((first_fit_allocate s process_id size).2.blocks).length =
        s.blocks.length + 1 ∧
      (first_fit_allocate s process_id size).1 = some b.start) ∧
    (b.size = size →
      (first_fit_allocate s process_id size).2.blocks =
        l₁ ++ ⟨b.start, size, false⟩ :: l₂ ∧
      ((first_fit_allocate s process_id size).2.blocks).length =
        s.blocks.length ∧
      (first_fit_allocate s process_id size).1 = some b.start) := by
  have hscan := ff_scan_append l₁ b l₂ size h₁ ⟨hfree, hfit⟩
  constructor
  · intro hlt
    have hne : ¬(b.size = size) := by omega
    rw [if_neg hne] at hscan
    simp only [first_fit_allocate, hblocks, hscan]
    refine ⟨trivial, ?_, trivial⟩
    simp only [List.length_append, List.length_cons]
    omega
  · intro heq
    rw [if_pos heq] at hscan
    simp only [first_fit_allocate, hblocks, hscan]
    refine ⟨by rw [heq], ?_, trivial⟩
    simp only [List.length_append, List.length_cons]

/-- Witness for C3 at the layout `[100, 500]` with request 212: both the
strict-split branch (212 < 500, giving blocks 212 allocated at 100 and
288 free at 312) and the vacuous exact-fit branch. -/
theorem first_fit_split_correct_witness :
    (212 < 500 →
      (first_fit_allocate (initialize_memory [100, 500]) 1 212).2.blocks =
        [⟨0, 100, true⟩] ++ ⟨100, 212, false⟩ ::
          ⟨100 + 212, 500 - 212, true⟩ :: [] ∧
      ((first_fit_allocate (initialize_memory [100, 500]) 1 212).2.blocks).length =
        (initialize_memory [100, 500]).blocks.length + 1 ∧
      (first_fit_allocate (initialize_memory [100, 500]) 1 212).1 =
        some 100) ∧
    (500 = 212 →
      (first_fit_allocate (initialize_memory [100, 500]) 1 212).2.blocks =
        [⟨0, 100, true⟩] ++ ⟨100, 212, false⟩ :: [] ∧
      ((first_fit_allocate (initialize_memory [100, 500]) 1 212).2.blocks).length =
        (initialize_memory [100, 500]).blocks.length ∧
      (first_fit_allocate (initialize_memory [100, 500]) 1 212).1 =
        some 100) :=
  first_fit_split_correct (initialize_memory [100, 500]) 1 212
    [⟨0, 100, true⟩] ⟨100, 500, true⟩ [] (by decide) (by decide) rfl
    (by decide)

/-- C6: when the wait queue is non-empty and the total free memory is
smaller than the head request's size, the drain step returns with the
state untouched — no allocation is attempted and the queue (head and all
requests behind it) is exactly as before — and the drain loop therefore
stops at once, the whole state unchanged. -/
theorem drain_stops_when_total_free_insufficient (s : SystemMemory)
    (w : WaitingProcess) (t : List WaitingProcess)
    (hq : s.wait_queue = w :: t)
    (hlt : get_total_free_memory s < w.memory_size) :
    try_allocate_waiting_process s = (false, s) ∧ drain s = s := by
  have h1 : try_allocate_waiting_process s = (false, s) := by
    simp only [try_allocate_waiting_process, hq]
    rw [if_pos hlt]
  refine ⟨h1, ?_⟩
  unfold drain
  rw [hq]
  simp only [List.length_cons]
  show drain_loop (t.length + 1 + 1) s = s
  simp [drain_loop, h1]

/-- Witness for C6: a queued 5 KB request over a single free 3 KB block
(total free 3 < 5). -/
theorem drain_stops_when_total_free_insufficient_witness :
    c6_state.wait_queue = ⟨1, 5⟩ :: [] ∧
    get_total_free_memory c6_state < 5 ∧
    try_allocate_waiting_process c6_state = (false, c6_state) ∧
    drain c6_state = c6_state := by
  refine ⟨by decide, by decide, ?_⟩
  have h := drain_stops_when_total_free_insufficient c6_state ⟨1, 5⟩ []
    (by decide) (by decide)
  exact h

/-- C7 (amended): when no free block fits the request,
`first_fit_allocate` reports the same failure value `none` (C: `-1`)
whether the request was enqueued or the wait queue was full and the
request dropped; the blocks and process table are untouched in both
outcomes, the state is fully unchanged when the queue is full, and the
request is appended at the rear when it is not. -/
theorem allocate_no_fit_reports_none (s : SystemMemory)
    (process_id size : Nat)
    (hnofit : ∀ b ∈ s.blocks, ¬(b.is_free = true ∧ size ≤ b.size)) :
    (first_fit_allocate s process_id size).1 = none ∧
    ((first_fit_allocate s process_id size).2).blocks = s.blocks ∧
    ((first_fit_allocate s process_id size).2).processes = s.processes ∧
    (MAX_WAIT_QUEUE ≤ s.wait_queue.length →
      (first_fit_allocate s process_id size).2 = s) ∧
    (s.wait_queue.length < MAX_WAIT_QUEUE →
      ((first_fit_allocate s process_id size).2).wait_queue =
        s.wait_queue ++ [⟨process_id, size⟩]) := by
  have hscan := ff_scan_eq_none s.blocks size hnofit
  unfold first_fit_allocate add_to_wait_queue
  rw [hscan]
  by_cases hfull : MAX_WAIT_QUEUE ≤ s.wait_queue.length
  · rw [if_pos hfull]
    exact ⟨rfl, rfl, rfl, fun _ => rfl, fun h => absurd h (by omega)⟩
  · rw [if_neg hfull]
    exact ⟨rfl, rfl, rfl, fun h => absurd h hfull, fun _ => rfl⟩

/-- Witness for C7's amended statement: a 6 KB request over a single free
5 KB block is not allocated, touches neither blocks nor processes, and is
appended to the (previously empty) wait queue. -/
theorem allocate_no_fit_reports_none_witness :
    (∀ b ∈ (initialize_memory [5]).blocks,
      ¬(b.is_free = true ∧ 6 ≤ b.size)) ∧
    ((first_fit_allocate (initialize_memory [5]) 1 6).1 = none ∧
    ((first_fit_allocate (initialize_memory [5]) 1 6).2).blocks =
      (initialize_memory [5]).blocks ∧
    ((first_fit_allocate (initialize_memory [5]) 1 6).2).processes =
      (initialize_memory [5]).processes ∧
    (MAX_WAIT_QUEUE ≤ (initialize_memory [5]).wait_queue.length →
      (first_fit_allocate (initialize_memory [5]) 1 6).2 =
        initialize_memory [5]) ∧
    ((initialize_memory [5]).wait_queue.length < MAX_WAIT_QUEUE →
      ((first_fit_allocate (initialize_memory [5]) 1 6).2).wait_queue =
        (initialize_memory [5]).wait_queue ++ [⟨1, 6⟩])) :=
  ⟨by decide,
    allocate_no_fit_reports_none (initialize_memory [5]) 1 6 (by decide)⟩

/-! Layout lemmas: contiguity, uniqueness of start addresses, and the
basic facts about initialization. -/

theorem contiguous_from_le (l : List MemoryBlock) :
    ∀ addr, contiguous_from addr l → ∀ b ∈ l, addr ≤ b.start := by
  induction l with
  | nil => intro addr _ b hb; simp at hb
  | cons c rest ih =>
    intro addr h b hb
    obtain ⟨hstart, hpos, hrest⟩ := h
    rcases List.mem_cons.mp hb with rfl | hb
    · omega
    · have := ih (addr + c.size) hrest b hb
      omega

/-- In a contiguous layout with positive sizes, start addresses are
unique. -/
theorem contiguous_start_inj (l : List MemoryBlock) :
    ∀ addr, contiguous_from addr l → ∀ b ∈ l, ∀ c ∈ l,
      b.start = c.start → b = c := by
  induction l with
  | nil => intro addr _ b hb; simp at hb
  | cons d rest ih =>
    intro addr h b hb c hc heq
    obtain ⟨hstart, hpos, hrest⟩ := h
    rcases List.mem_cons.mp hb with hb1 | hb2
    · rcases List.mem_cons.mp hc with hc1 | hc2
      · rw [hb1, hc1]
      · exfalso
        have hle := contiguous_from_le rest _ hrest c hc2
        rw [hb1] at heq
        omega
    · rcases List.mem_cons.mp hc with hc1 | hc2
      · exfalso
        have hle := contiguous_from_le rest _ hrest b hb2
        rw [hc1] at heq
        omega
      · exact ih _ hrest b hb2 c hc2 heq

/-- A contiguous layout is strictly sorted by start address. -/
theorem contiguous_pairwise_lt (l : List MemoryBlock) :
    ∀ addr, contiguous_from addr l →
      l.Pairwise (fun b c => b.start < c.start) := by
  induction l with
  | nil => intro addr _; exact List.Pairwise.nil
  | cons d rest ih =>
    intro addr h
    obtain ⟨hstart, hpos, hrest⟩ := h
    refine List.Pairwise.cons ?_ (ih (addr + d.size) hrest)
    intro c hc
    have := contiguous_from_le rest (addr + d.size) hrest c hc
    omega

theorem initialize_blocks_contiguous (sizes : List Nat) :
    ∀ addr, (∀ x ∈ sizes, 0 < x) →
      contiguous_from addr (initialize_blocks addr sizes) := by
  induction sizes with
  | nil => intro addr _; trivial
  | cons sz rest ih =>
    intro addr hpos
    exact ⟨rfl, hpos sz (by simp),
      ih (addr + sz) (fun x hx => hpos x (by simp [hx]))⟩

theorem initialize_blocks_sum (sizes : List Nat) :
    ∀ addr, sum_sizes (initialize_blocks addr sizes) = sizes.sum := by
  induction sizes with
  | nil => intro addr; rfl
  | cons sz rest ih =>
    intro addr
    simp [initialize_blocks, sum_sizes, ih, List.sum_cons]

/-! Preservation lemmas for the first-fit scan. -/

theorem ff_scan_sum (blocks : List MemoryBlock) (size : Nat) :
    ∀ addr blocks', ff_scan blocks size = some (addr, blocks') →
      sum_sizes blocks' = sum_sizes blocks := by
  induction blocks with
  | nil => intro addr blocks' h; simp [ff_scan] at h
  | cons b rest ih =>
    intro addr blocks' h
    by_cases hb : b.is_free = true ∧ size ≤ b.size
    · simp only [ff_scan, if_pos hb] at h
      by_cases hs : b.size = size
      · rw [if_pos hs] at h
        simp only [Option.some.injEq, Prod.mk.injEq] at h
        rw [← h.2]
        simp [sum_sizes, hs]
      · rw [if_neg hs] at h
        simp only [Option.some.injEq, Prod.mk.injEq] at h
        rw [← h.2]
        simp only [sum_sizes]
        omega
    · simp only [ff_scan, if_neg hb] at h
      rcases hscan : ff_scan rest size with _ | ⟨a, rest'⟩ <;>
        rw [hscan] at h
      · simp at h
      · simp only [Option.some.injEq, Prod.mk.injEq] at h
        rw [← h.2]
        simp [sum_sizes, ih a rest' hscan]

theorem ff_scan_contiguous (blocks : List MemoryBlock) (size : Nat)
    (hsize : 0 < size) :
    ∀ addr0 addr blocks', contiguous_from addr0 blocks →
      ff_scan blocks size = some (addr, blocks') →
      contiguous_from addr0 blocks' := by
  induction blocks with
  | nil => intro addr0 addr blocks' _ h; simp [ff_scan] at h
  | cons b rest ih =>
    intro addr0 addr blocks' hc h
    obtain ⟨hstart, hpos, hrest⟩ := hc
    by_cases hb : b.is_free = true ∧ size ≤ b.size
    · simp only [ff_scan, if_pos hb] at h
      by_cases hs : b.size = size
      · rw [if_pos hs] at h
        simp only [Option.some.injEq, Prod.mk.injEq] at h
        rw [← h.2]
        exact ⟨hstart, hpos, hrest⟩
      · rw [if_neg hs] at h
        simp only [Option.some.injEq, Prod.mk.injEq] at h
        rw [← h.2]
        have hlt : size < b.size :=
          Nat.lt_of_le_of_ne hb.2 (fun he => hs he.symm)
        refine ⟨hstart, hsize, by rw [hstart], Nat.sub_pos_of_lt hlt, ?_⟩
        show contiguous_from (addr0 + size + (b.size - size)) rest
        have heq2 : addr0 + size + (b.size - size) = addr0 + b.size := by
          omega
        rw [heq2]
        exact hrest
    · simp only [ff_scan, if_neg hb] at h
      rcases hscan : ff_scan rest size with _ | ⟨a, rest'⟩ <;>
        rw [hscan] at h
      · simp at h
      · simp only [Option.some.injEq, Prod.mk.injEq] at h
        rw [← h.2]
        exact ⟨hstart, hpos, ih (addr0 + b.size) a rest' hrest hscan⟩

/-- Blocks that were already allocated survive an allocation
(unchanged). -/
theorem ff_scan_preserves_allocated (blocks : List MemoryBlock)
    (size : Nat) :
    ∀ addr blocks', ff_scan blocks size = some (addr, blocks') →
      ∀ c ∈ blocks, c.is_free = false → c ∈ blocks' := by
  induction blocks with
  | nil => intro addr blocks' h; simp [ff_scan] at h
  | cons b rest ih =>
    intro addr blocks' h c hc hcf
    by_cases hb : b.is_free = true ∧ size ≤ b.size
    · have hcb : c ∈ rest := by
        rcases List.mem_cons.mp hc with rfl | hc2
        · rw [hb.1] at hcf; simp at hcf
        · exact hc2
      simp only [ff_scan, if_pos hb] at h
      by_cases hs : b.size = size
      · rw [if_pos hs] at h
        simp only [Option.some.injEq, Prod.mk.injEq] at h
        rw [← h.2]
        exact List.mem_cons_of_mem _ hcb
      · rw [if_neg hs] at h
        simp only [Option.some.injEq, Prod.mk.injEq] at h
        rw [← h.2]
        exact List.mem_cons_of_mem _ (List.mem_cons_of_mem _ hcb)
    · simp only [ff_scan, if_neg hb] at h
      rcases hscan : ff_scan rest size with _ | ⟨a, rest'⟩ <;>
        rw [hscan] at h
      · simp at h
      · simp only [Option.some.injEq, Prod.mk.injEq] at h
        rw [← h.2]
        rcases List.mem_cons.mp hc with rfl | hc2
        · exact List.mem_cons_self _ _
        · exact List.mem_cons_of_mem _ (ih a rest' hscan c hc2 hcf)

/-- A successful allocation leaves an allocated block of the requested
size at the returned address. -/
theorem ff_scan_new_block (blocks : List MemoryBlock) (size : Nat) :
    ∀ addr blocks', ff_scan blocks size = some (addr, blocks') →
      ∃ b ∈ blocks', b.start = addr ∧ b.is_free = false ∧
        b.size = size := by
  induction blocks with
  | nil => intro addr blocks' h; simp [ff_scan] at h
  | cons b rest ih =>
    intro addr blocks' h
    by_cases hb : b.is_free = true ∧ size ≤ b.size
    · simp only [ff_scan, if_pos hb] at h
      by_cases hs : b.size = size
      · rw [if_pos hs] at h
        simp only [Option.some.injEq, Prod.mk.injEq] at h
        refine ⟨{ b with is_free := false }, ?_, h.1, rfl, hs⟩
        rw [← h.2]
        exact List.mem_cons_self _ _
      · rw [if_neg hs] at h
        simp only [Option.some.injEq, Prod.mk.injEq] at h
        refine ⟨{ b with size := size, is_free := false }, ?_, h.1, rfl,
          rfl⟩
        rw [← h.2]
        exact List.mem_cons_self _ _
    · simp only [ff_scan, if_neg hb] at h
      rcases hscan : ff_scan rest size with _ | ⟨a, rest'⟩ <;>
        rw [hscan] at h
      · simp at h
      · simp only [Option.some.injEq, Prod.mk.injEq] at h
        obtain ⟨d, hd, hds, hdf, hdsz⟩ := ih a rest' hscan
        refine ⟨d, ?_, ?_, hdf, hdsz⟩
        · rw [← h.2]
          exact List.mem_cons_of_mem _ hd
        · rw [← h.1]
          exact hds

/-- The block selected by a successful allocation was free, with the
returned start address, in the original layout. -/
theorem ff_scan_chosen_free (blocks : List MemoryBlock) (size addr : Nat)
    (blocks' : List MemoryBlock)
    (h : ff_scan blocks size = some (addr, blocks')) :
    ∃ b ∈ blocks, b.start = addr ∧ b.is_free = true := by
  obtain ⟨l₁, b, l₂, hdec, hf, _, ha, _⟩ :=
    ff_scan_some_decomp blocks size addr blocks' h
  exact ⟨b, by simp [hdec], ha.symm, hf⟩

/-! Preservation lemmas for block freeing. -/

theorem mark_free_at_sum (blocks : List MemoryBlock) (addr : Nat) :
    ∀ blocks', mark_free_at blocks addr = some blocks' →
      sum_sizes blocks' = sum_sizes blocks := by
  induction blocks with
  | nil => intro blocks' h; simp [mark_free_at] at h
  | cons b rest ih =>
    intro blocks' h
    by_cases hb : b.start = addr
    · simp only [mark_free_at, if_pos hb, Option.some.injEq] at h
      rw [← h]
      simp [sum_sizes]
    · simp only [mark_free_at, if_neg hb] at h
      rcases hm : mark_free_at rest addr with _ | rest' <;> rw [hm] at h
      · simp at h
      · simp only [Option.some.injEq] at h
        rw [← h]
        simp [sum_sizes, ih rest' hm]

theorem mark_free_at_contiguous (blocks : List MemoryBlock) (addr : Nat) :
    ∀ a0 blocks', contiguous_from a0 blocks →
      mark_free_at blocks addr = some blocks' →
      contiguous_from a0 blocks' := by
  induction blocks with
  | nil => intro a0 blocks' _ h; simp [mark_free_at] at h
  | cons b rest ih =>
    intro a0 blocks' hc h
    obtain ⟨hstart, hpos, hrest⟩ := hc
    by_cases hb : b.start = addr
    · simp only [mark_free_at, if_pos hb, Option.some.injEq] at h
      rw [← h]
      exact ⟨hstart, hpos, hrest⟩
    · simp only [mark_free_at, if_neg hb] at h
      rcases hm : mark_free_at rest addr with _ | rest' <;> rw [hm] at h
      · simp at h
      · simp only [Option.some.injEq] at h
        rw [← h]
        exact ⟨hstart, hpos, ih (a0 + b.size) rest' hrest hm⟩

/-- If some block has the sought address, the search succeeds. -/
theorem mark_free_at_isSome (blocks : List MemoryBlock) (addr : Nat) :
    ∀ b ∈ blocks, b.start = addr →
      (mark_free_at blocks addr).isSome = true := by
  induction blocks with
  | nil => intro b hb; simp at hb
  | cons c rest ih =>
    intro b hb heq
    by_cases hc : c.start = addr
    · simp [mark_free_at, hc]
    · have hrec : (mark_free_at rest addr).isSome = true := by
        rcases List.mem_cons.mp hb with rfl | hb2
        · exact absurd heq hc
        · exact ih b hb2 heq
      simp only [mark_free_at, if_neg hc]
      rcases hm : mark_free_at rest addr with _ | rest'
      · rw [hm] at hrec
        simp at hrec
      · simp

/-- Blocks whose start differs from the freed address survive
(unchanged). -/
theorem mark_free_at_preserves (blocks : List MemoryBlock) (addr : Nat) :
    ∀ blocks', mark_free_at blocks addr = some blocks' →
      ∀ c ∈ blocks, c.start ≠ addr → c ∈ blocks' := by
  induction blocks with
  | nil => intro blocks' h; simp [mark_free_at] at h
  | cons b rest ih =>
    intro blocks' h c hc hne
    by_cases hb : b.start = addr
    · simp only [mark_free_at, if_pos hb, Option.some.injEq] at h
      rcases List.mem_cons.mp hc with rfl | hc2
      · exact absurd hb hne
      · rw [← h]
        exact List.mem_cons_of_mem _ hc2
    · simp only [mark_free_at, if_neg hb] at h
      rcases hm : mark_free_at rest addr with _ | rest' <;> rw [hm] at h
      · simp at h
      · simp only [Option.some.injEq] at h
        rcases List.mem_cons.mp hc with rfl | hc2
        · rw [← h]
          exact List.mem_cons_self _ _
        · rw [← h]
          exact List.mem_cons_of_mem _ (ih rest' hm c hc2 hne)

/-! Preservation of the engine invariant by each operation. -/

theorem first_fit_allocate_inv (total : Nat) (s : SystemMemory)
    (process_id size : Nat) (hsize : 0 < size) (hinv : Inv total s) :
    Inv total (first_fit_allocate s process_id size).2 := by
  obtain ⟨hc, hs, hq, hp, hpw⟩ := hinv
  rcases hscan : ff_scan s.blocks size with _ | ⟨a, blocks'⟩
  · simp only [first_fit_allocate, hscan, add_to_wait_queue]
    by_cases hfull : MAX_WAIT_QUEUE ≤ s.wait_queue.length
    · rw [if_pos hfull]
      exact ⟨hc, hs, hq, hp, hpw⟩
    · rw [if_neg hfull]
      refine ⟨hc, hs, ?_, hp, hpw⟩
      intro w hw
      rcases List.mem_append.mp hw with hw | hw
      · exact hq w hw
      · simp at hw
        rw [hw]
        exact hsize
  · simp only [first_fit_allocate, hscan]
    refine ⟨ff_scan_contiguous s.blocks size hsize 0 a blocks' hc hscan,
      (ff_scan_sum s.blocks size a blocks' hscan).trans hs, hq, ?_, ?_⟩
    · intro p hp2
      rcases List.mem_append.mp hp2 with hold | hnew
      · intro hact
        obtain ⟨bp, hbp, hbs, hbf, hbsz⟩ := hp p hold hact
        exact ⟨bp, ff_scan_preserves_allocated s.blocks size a blocks'
          hscan bp hbp hbf, hbs, hbf, hbsz⟩
      · simp at hnew
        rw [hnew]
        intro _
        exact ff_scan_new_block s.blocks size a blocks' hscan
    · rw [List.pairwise_append]
      refine ⟨hpw, List.pairwise_singleton _ _, ?_⟩
      intro p hpold e he
      simp at he
      rw [he]
      intro hact _ heq
      obtain ⟨bp, hbp, hbs, hbf, _⟩ := hp p hpold hact
      obtain ⟨bfree, hbfm, hbfs, hbff⟩ :=
        ff_scan_chosen_free s.blocks size a blocks' hscan
      have hbb : bp = bfree :=
        contiguous_start_inj s.blocks 0 hc bp hbp bfree hbfm
          (by rw [hbs, heq, hbfs])
      rw [hbb, hbff] at hbf
      cases hbf

theorem try_allocate_inv (total : Nat) (s : SystemMemory)
    (hinv : Inv total s) : Inv total (try_allocate_waiting_process s).2 := by
  rcases hwq : s.wait_queue with _ | ⟨w, t⟩
  · simp only [try_allocate_waiting_process, hwq]
    exact hinv
  · simp only [try_allocate_waiting_process, hwq]
    by_cases hlt : get_total_free_memory s < w.memory_size
    · rw [if_pos hlt]
      exact hinv
    · rw [if_neg hlt]
      have hwpos : 0 < w.memory_size :=
        hinv.2.2.1 w (by rw [hwq]; exact List.mem_cons_self _ _)
      have hffa :=
        first_fit_allocate_inv total s w.process_id w.memory_size hwpos hinv
      rcases hr : first_fit_allocate s w.process_id w.memory_size with ⟨r, s'⟩
      rw [hr] at hffa
      rcases r with _ | a
      · exact hffa
      · obtain ⟨hc, hs, hq, hp, hpw⟩ := hffa
        exact ⟨hc, hs, fun x hx => hq x (List.mem_of_mem_drop hx), hp, hpw⟩

theorem drain_loop_inv (fuel : Nat) :
    ∀ (total : Nat) (s : SystemMemory), Inv total s →
      Inv total (drain_loop fuel s) := by
  induction fuel with
  | zero => intro total s h; exact h
  | succ fuel ih =>
    intro total s h
    have hstep := try_allocate_inv total s h
    rcases hts : try_allocate_waiting_process s with ⟨flag, s'⟩
    rw [hts] at hstep
    rcases flag
    · simp only [drain_loop, hts]
      exact hstep
    · simp only [drain_loop, hts]
      exact ih total s' hstep

theorem drain_inv (total : Nat) (s : SystemMemory) (h : Inv total s) :
    Inv total (drain s) :=
  drain_loop_inv _ total s h

/-- Under the per-process invariant, the free scan either finds no active
record with the given id and reports failure with nothing changed, or
splits the table at the first such record, deactivates exactly it, and
frees the block at its address (the block search cannot fail, so the
deactivate-without-freeing path is never taken). -/
theorem free_scan_cases (procs : List Process) (blocks : List MemoryBlock)
    (process_id : Nat)
    (hgp : ∀ p ∈ procs, good_process blocks p) :
    (free_scan procs blocks process_id = (false, procs, blocks) ∧
      ∀ p ∈ procs, ¬(p.id = process_id ∧ p.is_active = true)) ∨
    (∃ l₁ q l₂ blocks', procs = l₁ ++ q :: l₂ ∧
      (∀ p ∈ l₁, ¬(p.id = process_id ∧ p.is_active = true)) ∧
      q.id = process_id ∧ q.is_active = true ∧
      mark_free_at blocks q.memory_address = some blocks' ∧
      free_scan procs blocks process_id =
        (true, l₁ ++ { q with is_active := false } :: l₂, blocks')) := by
  induction procs with
  | nil =>
    left
    exact ⟨rfl, by simp⟩
  | cons p rest ih =>
    by_cases hm : p.id = process_id ∧ p.is_active = true
    · right
      obtain ⟨bp, hbp, hbs, hbf, hbsz⟩ := hgp p (by simp) hm.2
      have hsome := mark_free_at_isSome blocks p.memory_address bp hbp hbs
      rcases hmark : mark_free_at blocks p.memory_address with _ | blocks'
      · rw [hmark] at hsome
        simp at hsome
      · refine ⟨[], p, rest, blocks', by simp, by simp, hm.1, hm.2, hmark,
          ?_⟩
        simp [free_scan, hm, hmark]
    · rcases ih (fun d hd => hgp d (by simp [hd])) with
        ⟨heq, hnone⟩ | ⟨l₁, q, l₂, blocks', hdec, hl₁, hid, hact, hmark, heq⟩
      · left
        constructor
        · simp [free_scan, hm, heq]
        · intro d hd
          rcases List.mem_cons.mp hd with rfl | hd2
          · exact hm
          · exact hnone d hd2
      · right
        refine ⟨p :: l₁, q, l₂, blocks', by simp [hdec], ?_, hid, hact,
          hmark, ?_⟩
        · intro d hd
          rcases List.mem_cons.mp hd with rfl | hd2
          · exact hm
          · exact hl₁ d hd2
        · simp [free_scan, hm, heq]

theorem free_memory_inv (total : Nat) (s : SystemMemory)
    (process_id : Nat) (hinv : Inv total s) :
    Inv total (free_memory s process_id).2 := by
  obtain ⟨hc, hs, hq, hp, hpw⟩ := hinv
  rcases free_scan_cases s.processes s.blocks process_id hp with
    ⟨heq, _⟩ | ⟨l₁, q, l₂, blocks', hdec, hl₁, hid, hact, hmark, heq⟩
  · simp only [free_memory, heq]
    exact ⟨hc, hs, hq, hp, hpw⟩
  · simp only [free_memory, heq]
    apply drain_inv
    have hpwd : (l₁ ++ q :: l₂).Pairwise addr_disjoint := by
      rw [← hdec]
      exact hpw
    refine ⟨mark_free_at_contiguous s.blocks q.memory_address 0 blocks'
        hc hmark,
      (mark_free_at_sum s.blocks q.memory_address blocks' hmark).trans hs,
      hq, ?_, ?_⟩
    · show ∀ p ∈ l₁ ++ { q with is_active := false } :: l₂,
        good_process blocks' p
      intro p hp2
      rcases List.mem_append.mp hp2 with hpl | hpr
      · intro hpact
        obtain ⟨bp, hbp, hbs, hbf, hbsz⟩ :=
          hp p (by rw [hdec]; exact List.mem_append_left _ hpl) hpact
        have hne : p.memory_address ≠ q.memory_address :=
          (List.pairwise_append.mp hpwd).2.2 p hpl q
            (List.mem_cons_self _ _) hpact hact
        exact ⟨bp, mark_free_at_preserves s.blocks q.memory_address
          blocks' hmark bp hbp (by rw [hbs]; exact hne), hbs, hbf, hbsz⟩
      · rcases List.mem_cons.mp hpr with rfl | hpl₂
        · intro hpact
          simp at hpact
        · intro hpact
          obtain ⟨bp, hbp, hbs, hbf, hbsz⟩ :=
            hp p (hdec ▸ List.mem_append_right l₁ (List.mem_cons_of_mem q hpl₂)) hpact
          have hne : q.memory_address ≠ p.memory_address :=
            (List.pairwise_cons.mp
              (List.pairwise_append.mp hpwd).2.1).1 p hpl₂ hact hpact
          exact ⟨bp, mark_free_at_preserves s.blocks q.memory_address
            blocks' hmark bp hbp (by rw [hbs]; exact hne.symm), hbs, hbf,
            hbsz⟩
    · show (l₁ ++ { q with is_active := false } :: l₂).Pairwise addr_disjoint
      rw [List.pairwise_append] at hpwd ⊢
      obtain ⟨h1, h2, h3⟩ := hpwd
      refine ⟨h1, ?_, ?_⟩
      · rw [List.pairwise_cons] at h2 ⊢
        refine ⟨?_, h2.2⟩
        intro d hd hq2
        simp at hq2
      · intro d hd e he
        rcases List.mem_cons.mp he with rfl | he2
        · intro _ hq2
          simp at hq2
        · exact h3 d hd e (List.mem_cons_of_mem _ he2)

/-- The engine invariant holds in every reachable state. -/
theorem reachable_inv (sizes : List Nat) (hpos : ∀ x ∈ sizes, 0 < x)
    (s : SystemMemory) (hr : Reachable sizes s) : Inv sizes.sum s := by
  induction hr with
  | init =>
    refine ⟨initialize_blocks_contiguous sizes 0 hpos,
      initialize_blocks_sum sizes 0, ?_, ?_, ?_⟩
    · intro w hw
      simp [initialize_memory] at hw
    · intro p hp2
      simp [initialize_memory] at hp2
    · exact List.Pairwise.nil
  | alloc s2 process_id size hs2 hsize ih =>
    exact first_fit_allocate_inv _ s2 process_id size hsize ih
  | free s2 process_id hs2 ih =>
    exact free_memory_inv _ s2 process_id ih

/-- C4: in every state reachable from initialization (positive block
sizes, as `main` enforces) by allocate and free operations, the block
list is contiguous from address 0 — the first block starts at 0, each
block's start plus its size equals the next block's start (no gaps, no
overlaps), all sizes positive — hence strictly sorted ascending by start,
and the sum of all block sizes equals the total address-space size fixed
at initialization. -/
theorem blocks_contiguous_constant_sum (sizes : List Nat)
    (hpos : ∀ x ∈ sizes, 0 < x) (s : SystemMemory)
    (hr : Reachable sizes s) :
    contiguous_from 0 s.blocks ∧
    s.blocks.Pairwise (fun b c => b.start < c.start) ∧
    sum_sizes s.blocks = sizes.sum := by
  obtain ⟨hc, hs, _, _, _⟩ := reachable_inv sizes hpos s hr
  exact ⟨hc, contiguous_pairwise_lt s.blocks 0 hc, hs⟩

/-- Witness for C4 on blocks `[10, 7]` after one splitting allocation of
4 KB. -/
theorem blocks_contiguous_constant_sum_witness :
    (∀ x ∈ [10, 7], 0 < x) ∧
    (contiguous_from 0
        ((first_fit_allocate (initialize_memory [10, 7]) 1 4).2).blocks ∧
      ((first_fit_allocate (initialize_memory [10, 7]) 1 4).2).blocks.Pairwise
        (fun b c => b.start < c.start) ∧
      sum_sizes ((first_fit_allocate (initialize_memory [10, 7]) 1 4).2).blocks =
        [10, 7].sum) :=
  ⟨by decide,
    blocks_contiguous_constant_sum [10, 7] (by decide) _
      (Reachable.alloc _ 1 4 Reachable.init (by decide))⟩

/-- C10: in every reachable state, each active process record points at a
block that is marked allocated, starts exactly at the recorded address,
and has exactly the recorded size; consequently the block search of
`free_memory` (`mark_free_at`) succeeds on every active record's address,
so the code path that deactivates a process without freeing any block is
unreachable. -/
theorem active_process_block_invariant (sizes : List Nat)
    (hpos : ∀ x ∈ sizes, 0 < x) (s : SystemMemory)
    (hr : Reachable sizes s) :
    ∀ p ∈ s.processes, p.is_active = true →
      (∃ b ∈ s.blocks, b.start = p.memory_address ∧ b.is_free = false ∧
        b.size = p.memory_size) ∧
      (mark_free_at s.blocks p.memory_address).isSome = true := by
  obtain ⟨_, _, _, hp, _⟩ := reachable_inv sizes hpos s hr
  intro p hp2 hact
  obtain ⟨b, hb, hbs, hbf, hbsz⟩ := hp p hp2 hact
  exact ⟨⟨b, hb, hbs, hbf, hbsz⟩,
    mark_free_at_isSome s.blocks p.memory_address b hb hbs⟩

/-- Witness for C10 on blocks `[10]` after an exact-fit allocation, whose
process record is active at address 0. -/
theorem active_process_block_invariant_witness :
    (∀ x ∈ [10], 0 < x) ∧
    ∀ p ∈ ((first_fit_allocate (initialize_memory [10]) 1 10).2).processes,
      p.is_active = true →
      (∃ b ∈ ((first_fit_allocate (initialize_memory [10]) 1 10).2).blocks,
        b.start = p.memory_address ∧ b.is_free = false ∧
        b.size = p.memory_size) ∧
      (mark_free_at
        ((first_fit_allocate (initialize_memory [10]) 1 10).2).blocks
        p.memory_address).isSome = true :=
  ⟨by decide,
    active_process_block_invariant [10] (by decide) _
      (Reachable.alloc _ 1 10 Reachable.init (by decide))⟩

end FFSim
